import Mathlib

/-!
Verification of the unit-algebra, biomarker-pooling and age-binned trend
core of the NHANES blood-biomarker variability pipeline.

Python strings are modelled as `List Char`; pandas/NumPy floats are
modelled as exact rationals `ℚ`; Python `None`/NaN is modelled with
`Option`.  Each definition is a direct translation of the function of the
same name in `src/build_analysis_dataset.py` or
`src/compute_cv_metrics.py` (and, where noted, `src/build_dashboard.py`).
-/

set_option allowUnsafeReducibility true

attribute [semireducible] Rat.add Rat.mul Rat.inv Rat.sub Rat.div

namespace NhanesVer

/-- Python strings modelled as lists of characters. -/
abbrev Str := List Char

/-- Convert a Lean string literal to the `List Char` model. -/
def strL (s : String) : Str := s.toList

/-- ASCII whitespace, the characters matched by Python `\s`/`str.strip()`
on the ASCII plane (full Unicode whitespace is out of scope). -/
def isPySpace (c : Char) : Bool :=
  c = ' ' || c = '\t' || c = '\n' || c = '\r' || c.toNat = 11 || c.toNat = 12

/-- Python `str.strip()`: drop leading and trailing whitespace. -/
def pyStrip (s : Str) : Str :=
  (((s.dropWhile isPySpace).reverse).dropWhile isPySpace).reverse

/-- Python `str.lower()` restricted to ASCII plus the Greek capitals that
feed the replacement table of `normalize_base_name`. -/
def pyLower (c : Char) : Char :=
  if c = 'Α' then 'α' else if c = 'Β' then 'β' else if c = 'Γ' then 'γ'
  else if c = 'Δ' then 'δ' else if c = 'Μ' then 'μ' else c.toLower

/-- Map the two Unicode micro-sign variants to `u`
(the `.replace("μ", "u").replace("µ", "u")` step of `normalize_unit`). -/
def microToU (c : Char) : Char := if c = 'μ' || c = 'µ' then 'u' else c

/-- `normalize_unit` from `build_analysis_dataset.py`: lowercase, map the
micro signs to `u`, remove all whitespace (the initial `.strip()` of the
source is subsumed by removing every whitespace character). -/
def normalize_unit (u : Str) : Str :=
  ((u.map pyLower).map microToU).filter (fun c => !isPySpace c)

/-- Canonical dimensional signature of a unit, mirroring the dict returned
by `parse_unit_signature`. -/
structure UnitSig where
  num_base : Str
  num_scale : ℚ
  den_scale : ℚ
  unit_norm : Str
deriving DecidableEq

/-- `PREFIX_SCALE` table: power-of-ten multiplier of the metric prefix. -/
def PREFIX_SCALE : List (Str × ℚ) :=
  [([], 1), (['p'], 1/10^12), (['n'], 1/10^9), (['u'], 1/10^6),
   (['m'], 1/10^3), (['c'], 1/10^2), (['d'], 1/10)]

/-- `DEN_SCALE` table: fraction of a liter of the volume denominator. -/
def DEN_SCALE : List (Str × ℚ) :=
  [(strL "l", 1), (strL "dl", 1/10), (strL "ml", 1/10^3), (strL "ul", 1/10^6)]

/-- The base-quantity alternatives of the unit grammar, in the order they
appear in the regex `(g|mol|iu|u|eq|kat)`. -/
def numBases : List Str :=
  [strL "g", strL "mol", strL "iu", strL "u", strL "eq", strL "kat"]

/-- Association-list lookup used for both scale tables. -/
def lookupScale (k : Str) : List (Str × ℚ) → Option ℚ
  | [] => none
  | (k', v) :: t => if k = k' then some v else lookupScale k t

/-- Match the numerator part `([pnumcd]?)(g|mol|iu|u|eq|kat)` of the unit
grammar, returning the base quantity and the prefix multiplier.  Like the
regex, a leading prefix character is consumed greedily and we fall back to
the empty prefix when the remainder is not a base quantity. -/
def parseNum (a : Str) : Option (Str × ℚ) :=
  match a with
  | [] => none
  | c :: rest =>
    match lookupScale [c] PREFIX_SCALE with
    | some sc =>
      if rest ∈ numBases then some (rest, sc)
      else if (c :: rest) ∈ numBases then some (c :: rest, 1) else none
    | none => if (c :: rest) ∈ numBases then some (c :: rest, 1) else none

/-- Split a string at its first `/`, as the single `/` of the grammar. -/
def splitSlash : Str → Option (Str × Str)
  | [] => none
  | c :: t =>
    if c = '/' then some ([], t)
    else (splitSlash t).map (fun p => (c :: p.1, p.2))

/-- Match an already-normalized unit against the grammar
`([pnumcd]?)(g|mol|iu|u|eq|kat)/(l|dl|ml|ul)` and build its signature.
The redundant `pfx not in PREFIX_SCALE or den not in DEN_SCALE` re-check of
the source is subsumed by the table lookups. -/
def parseCore (u : Str) : Option UnitSig :=
  match splitSlash u with
  | none => none
  | some (numPart, denPart) =>
    match parseNum numPart, lookupScale denPart DEN_SCALE with
    | some (b, ns), some ds => some ⟨b, ns, ds, u⟩
    | _, _ => none

/-- `parse_unit_signature` from `build_analysis_dataset.py`. -/
def parse_unit_signature (u : Str) : Option UnitSig :=
  let n := normalize_unit u
  if n = [] then none else parseCore n

/-- `conversion_factor` from `build_analysis_dataset.py`: multiplicative
factor converting a value in `src_unit` to `dst_unit`. -/
def conversion_factor (src_unit dst_unit : Str) : Option ℚ :=
  match parse_unit_signature src_unit, parse_unit_signature dst_unit with
  | some src, some dst =>
    if src.num_base ≠ dst.num_base then none
    else
      let srcDensity := src.num_scale / src.den_scale
      let dstDensity := dst.num_scale / dst.den_scale
      if dstDensity = 0 then none else some (srcDensity / dstDensity)
  | _, _ => none

/-- The unit grammar as a predicate: a normalized string matches
`^([pnumcd]?)(g|mol|iu|u|eq|kat)/(l|dl|ml|ul)$` exactly when it decomposes
as prefix ++ base ++ `/` ++ denominator over the three tables. -/
def IsGrammar (u : Str) : Prop :=
  ∃ p ∈ PREFIX_SCALE.map Prod.fst, ∃ b ∈ numBases, ∃ d ∈ DEN_SCALE.map Prod.fst,
    u = p ++ b ++ '/' :: d

/-- The bin edges of `assign_age_bins` in `compute_cv_metrics.py`:
`np.arange(20, 90, 5)` (that is, 20, 25, ..., 85) followed by the sentinel
200, giving left-closed right-open `pd.cut` intervals. -/
def ageBinEdges : List ℚ := ((List.range 14).map (fun i => 20 + 5 * (i : ℚ))) ++ [200]

/-- The bin labels `"20-24", ..., "80-84", "85+"`. -/
def ageBinLabels : List Str :=
  ((List.range 13).map (fun i =>
    strL (toString (20 + 5 * i) ++ "-" ++ toString (20 + 5 * i + 4)))) ++ [strL "85+"]

/-- The bin midpoints `a + 2.5` for each five-year bin and `87.5` for the
top bin. -/
def ageBinMids : List ℚ :=
  ((List.range 13).map (fun i => 20 + 5 * (i : ℚ) + mkRat 5 2)) ++ [mkRat 175 2]

/-- Index of the `pd.cut` interval (left-inclusive, right-exclusive, as
with `right=False`) containing `v`, if any. -/
def cutIndex (v : ℚ) : List ℚ → Option ℕ
  | e1 :: e2 :: rest =>
    if e1 ≤ v ∧ v < e2 then some 0 else (cutIndex v (e2 :: rest)).map (· + 1)
  | _ => none

/-- `assign_age_bins` applied to one age value: the `pd.cut` bin label
together with its midpoint (the label-to-midpoint dict lookup of the
source). -/
def assign_age_bin (age : ℚ) : Option (Str × ℚ) :=
  match cutIndex age ageBinEdges with
  | some j =>
    match ageBinLabels.get? j, ageBinMids.get? j with
    | some l, some m => some (l, m)
    | _, _ => none
  | none => none

/-- Age `a` lies in bin `j` of the fixed edge scheme. -/
def InAgeBin (a : ℚ) (j : ℕ) : Prop :=
  ∃ e1 e2, ageBinEdges.get? j = some e1 ∧ ageBinEdges.get? (j + 1) = some e2 ∧
    e1 ≤ a ∧ a < e2

/-- Output columns of `compute_binned` in `compute_cv_metrics.py`: the
groupby keys (`biomarker_id`, `biomarker_name`, plus `unit` when the input
has a unit column) and `age_bin`/`age_mid`, the aggregates of
`.agg(["count", "mean", "std"])` with `count` renamed to `n`, and the
appended `cv` and `passes_n_threshold` columns. -/
def compute_binned_columns (hasUnit : Bool) : List Str :=
  ([strL "biomarker_id", strL "biomarker_name"] ++
      (if hasUnit then [strL "unit"] else [])) ++
    [strL "age_bin", strL "age_mid", strL "n", strL "mean", strL "std",
     strL "cv", strL "passes_n_threshold"]

/-- Output columns of `compute_binned_long` in `build_dashboard.py`, whose
aggregation additionally computes the empirical 2.5th/97.5th percentiles
(`p025`/`p975`, via `np.nanpercentile`). -/
def compute_binned_long_columns (groupCols : List Str) : List Str :=
  groupCols ++ [strL "age_bin", strL "age_mid", strL "n", strL "mean", strL "std",
    strL "p025", strL "p975", strL "cv", strL "passes_n_threshold"]

/-- NumPy `np.round` restricted to a single rational: round half to even
(banker's rounding), returning the rounded value as a rational. -/
def npRound (x : ℚ) : ℚ :=
  let f : ℤ := Int.fdiv x.num x.den
  let r : ℚ := x - (f : ℚ)
  if r < mkRat 1 2 then (f : ℚ)
  else if mkRat 1 2 < r then (f : ℚ) + 1
  else if f % 2 = 0 then (f : ℚ) else (f : ℚ) + 1

/-- The per-element test of `np.isclose(x, np.round(x), atol=1e-12)` as the
source actually evaluates it: NumPy keeps its default relative tolerance
`rtol=1e-5`, so the test is `|x - r| <= 1e-12 + 1e-5 * |r|`. -/
def integerLike (x : ℚ) : Bool :=
  |x - npRound x| ≤ mkRat 1 1000000000000 + mkRat 1 100000 * |npRound x|

/-- The integer-likeness test as the specification words it: within `1e-12`
of the rounded value, with no relative-tolerance term. -/
def claimIntegerLike (x : ℚ) : Bool :=
  |x - npRound x| ≤ mkRat 1 1000000000000

/-- `is_continuous_numeric` from `build_analysis_dataset.py`.  The input
models the coerced numeric series; `none` entries are the missing values
dropped by `.dropna()`. -/
def is_continuous_numeric (s : List (Option ℚ)) : Bool :=
  let x := s.filterMap id
  let n := x.length
  if n < 30 then false
  else
    let nunique := x.dedup.length
    if nunique < 8 then false
    else
      let fracUnique : ℚ := (nunique : ℚ) / ((max n 1 : ℕ) : ℚ)
      let integerLikeFrac : ℚ :=
        if n = 0 then 1 else ((x.filter integerLike).length : ℚ) / (n : ℚ)
      if mkRat 995 1000 < integerLikeFrac ∧ nunique ≤ 12 then false
      else if fracUnique < mkRat 1 100 ∧ nunique < 20 then false
      else true

/-- The continuity test exactly as the claim words it (for comparison with
the code): reject iff fewer than 30 values, or fewer than 8 distinct
values, or the fraction of entries within `1e-12` of an integer exceeds
99.5% while distinct <= 12, or distinct/n is below 1% while distinct < 20. -/
def claim_is_continuous (s : List (Option ℚ)) : Bool :=
  let x := s.filterMap id
  let n := x.length
  let nunique := x.dedup.length
  let fracUnique : ℚ := (nunique : ℚ) / (n : ℚ)
  let intFrac : ℚ := ((x.filter claimIntegerLike).length : ℚ) / (n : ℚ)
  !(decide (n < 30) || decide (nunique < 8) ||
    (decide (mkRat 995 1000 < intFrac) && decide (nunique ≤ 12)) ||
    (decide (fracUnique < mkRat 1 100) && decide (nunique < 20)))

/-- A series of 30 values (12 distinct), each one-thousandth above a large
integer: every value passes NumPy's `isclose` test through the relative
tolerance but none is within `1e-12` of an integer. -/
def cxContinuityList : List (Option ℚ) :=
  List.replicate 19 (some ((1000000 : ℚ) + mkRat 1 1000)) ++
    (List.range 11).map (fun k => some ((1000000 : ℚ) + ((k + 1 : ℕ) : ℚ) + mkRat 1 1000))

/-- Collect the characters of a parenthesis-free group up to the first
closing parenthesis (the `([^()]*)\)` portion of the label regex),
returning the group content and the remainder after the `)`. -/
def grabUnit : Str → Option (Str × Str)
  | [] => none
  | c :: rest =>
    if c = ')' then some ([], rest)
    else if c = '(' then none
    else (grabUnit rest).map (fun p => (c :: p.1, p.2))

/-- Match the label regex `\(([^()]*)\)\s*$` at the current position. -/
def matchHere : Str → Option Str
  | [] => none
  | c :: rest =>
    if c = '(' then
      match grabUnit rest with
      | some (u, r) => if r.all isPySpace then some u else none
      | none => none
    else none

/-- The left-to-right scan of `re.search`: try the pattern at each start
position and return the text before the first match together with the
captured group. -/
def scanUnit : Str → Str → Option (Str × Str)
  | _, [] => none
  | pre, c :: rest =>
    match matchHere (c :: rest) with
    | some u => some (pre, u)
    | none => scanUnit (pre ++ [c]) rest

/-- Python `str.rstrip(",")`: drop trailing commas. -/
def rstripComma (s : Str) : Str :=
  (s.reverse.dropWhile (fun c => decide (c = ','))).reverse

/-- `parse_terminal_unit` from `build_analysis_dataset.py`: strip the
label, search for a trailing non-nested parenthesized unit, and return
`(base, unit)`; when there is no match, return the stripped label together
with the empty unit. -/
def parse_terminal_unit (label : Str) : Str × Str :=
  let s := pyStrip label
  match scanUnit [] s with
  | none => (s, [])
  | some (pre, u) => (rstripComma (pyStrip pre), pyStrip u)

/-- `s` decomposes as base ++ `(` ++ unit ++ `)` ++ trailing whitespace
with a parenthesis-free unit: the semantics of `\(([^()]*)\)\s*$`. -/
def ValidSplit (s b u w : Str) : Prop :=
  s = b ++ '(' :: (u ++ ')' :: w) ∧ (∀ c ∈ u, c ≠ '(' ∧ c ≠ ')') ∧
    ∀ c ∈ w, isPySpace c = true

/-- One row of the `cv_by_age_all` table consumed by `compute_trends`
(the columns produced by `compute_binned`). -/
structure CvRow where
  biomarker_id : Str
  biomarker_name : Str
  age_bin : Str
  age_mid : ℚ
  n : ℕ
  mean : ℚ
  std : ℚ
  cv : ℚ
  passes_n_threshold : Bool
deriving DecidableEq, Inhabited

/-- One row of the `cv_trend_metrics` table produced by `compute_trends`;
NaN statistics are modelled as `none`. -/
structure TrendRow where
  biomarker_id : Str
  biomarker_name : Str
  n_bins : ℕ
  spearman_rho : Option ℚ
  spearman_p : Option ℚ
  linear_slope_cv_per_year : Option ℚ
  linear_slope_logcv_per_year : Option ℚ
  decline_flag : Bool
deriving DecidableEq, Inhabited

/-- Pandas `groupby`: the distinct keys, each paired with the rows having
that key (within-group order preserved; group order is irrelevant to the
properties proved here). -/
def groupByKey {α κ : Type} [DecidableEq κ] (key : α → κ) (l : List α) :
    List (κ × List α) :=
  ((l.map key).dedup).map (fun k => (k, l.filter (fun x => decide (key x = k))))

/-- Insert a row into a list sorted by `age_mid`. -/
def insertByMid (r : CvRow) : List CvRow → List CvRow
  | [] => [r]
  | x :: t => if r.age_mid ≤ x.age_mid then r :: x :: t else x :: insertByMid r t

/-- The `g.sort_values("age_mid")` step, as an insertion sort. -/
def sortByAgeMid : List CvRow → List CvRow
  | [] => []
  | x :: t => insertByMid x (sortByAgeMid t)

/-- The `slope` helper of `compute_cv_metrics.py`: `np.nan` (here `none`)
for fewer than two points, else the degree-one least-squares coefficient.
In the rank-deficient case (all abscissae equal) `np.polyfit` returns the
minimum-norm least-squares solution, whose slope is the second formula. -/
def lsSlope (x y : List ℚ) : Option ℚ :=
  if x.length < 2 then none
  else
    let n : ℚ := (x.length : ℚ)
    let sx := x.sum
    let sy := y.sum
    let sxy := ((x.zip y).map (fun p => p.1 * p.2)).sum
    let sxx := (x.map (fun v => v * v)).sum
    let d := n * sxx - sx * sx
    if d = 0 then some ((sx * sy) / (sx * sx + n * n))
    else some ((n * sxy - sx * sy) / d)

/-- The decline decision rule of `compute_trends`: all of `n_bins >= 5`,
`spearman_rho` non-NaN and negative, `spearman_p` non-NaN and below 0.05,
and `linear_slope_cv_per_year` non-NaN and negative. -/
def declineFlagOf (nb : ℕ) (rho p sl : Option ℚ) : Bool :=
  match rho, p, sl with
  | some r, some pv, some s =>
    decide (5 ≤ nb) && decide (r < 0) && decide (pv < mkRat 1 20) && decide (s < 0)
  | _, _, _ => false

/-- `compute_trends` from `compute_cv_metrics.py`.  The Spearman statistic
comes from SciPy, an external library: it is passed in as the oracle `sp`
returning `(rho, p)` with `none` for NaN, and is consulted exactly when at
least two eligible bins exist, as in the source.  `np.log` is likewise the
external `logf`.  Everything else — the eligibility filter, grouping,
ordering by `age_mid`, the slope computations, and the decline rule — is
translated directly. -/
def compute_trends (sp : List ℚ → List ℚ → Option ℚ × Option ℚ)
    (logf : ℚ → ℚ) (cv_df : List CvRow) : List TrendRow :=
  let eligible := cv_df.filter (fun r => r.passes_n_threshold)
  (groupByKey (fun r => (r.biomarker_id, r.biomarker_name)) eligible).map
    (fun kg =>
      let g := sortByAgeMid kg.2
      let x := g.map (fun r => r.age_mid)
      let y := g.map (fun r => r.cv)
      let rp := if 2 ≤ y.length then sp x y else (none, none)
      let slopeCv := lsSlope x y
      let posPairs := (x.zip y).filter (fun p => decide (0 < p.2))
      let slopeLog :=
        if 2 ≤ posPairs.length then
          lsSlope (posPairs.map Prod.fst) ((posPairs.map Prod.snd).map logf)
        else none
      { biomarker_id := kg.1.1
        biomarker_name := kg.1.2
        n_bins := g.length
        spearman_rho := rp.1
        spearman_p := rp.2
        linear_slope_cv_per_year := slopeCv
        linear_slope_logcv_per_year := slopeLog
        decline_flag := declineFlagOf g.length rp.1 rp.2 slopeCv })

/-- Six eligible bins with strictly decreasing CV, mirroring the
decline-flag unit test of the repository. -/
def cvDfDecline : List CvRow :=
  [⟨strL "B::Y", strL "Y", strL "bin0", mkRat 45 2, 50, 100, 30, mkRat 30 100, true⟩,
   ⟨strL "B::Y", strL "Y", strL "bin1", mkRat 55 2, 50, 100, 26, mkRat 26 100, true⟩,
   ⟨strL "B::Y", strL "Y", strL "bin2", mkRat 65 2, 50, 100, 22, mkRat 22 100, true⟩,
   ⟨strL "B::Y", strL "Y", strL "bin3", mkRat 75 2, 50, 100, 18, mkRat 18 100, true⟩,
   ⟨strL "B::Y", strL "Y", strL "bin4", mkRat 85 2, 50, 100, 16, mkRat 16 100, true⟩,
   ⟨strL "B::Y", strL "Y", strL "bin5", mkRat 95 2, 50, 100, 14, mkRat 14 100, true⟩]

/-- A Spearman oracle reporting a significant negative rank correlation,
standing in for SciPy on the strictly decreasing test data. -/
def spDecline : List ℚ → List ℚ → Option ℚ × Option ℚ :=
  fun _ _ => (some (-1), some (mkRat 1 100))

/-- The character class `[a-z0-9 %/+-]` kept by `normalize_base_name`. -/
def isAllowedBase (c : Char) : Bool :=
  decide ('a' ≤ c ∧ c ≤ 'z') || decide ('0' ≤ c ∧ c ≤ '9') || c = ' ' || c = '%' ||
    c = '/' || c = '+' || c = '-'

/-- The Greek-letter and dash replacement table of `normalize_base_name`. -/
def greekDashRepl (c : Char) : Char :=
  if c = 'α' then 'a' else if c = 'β' then 'b' else if c = 'γ' then 'g'
  else if c = 'δ' then 'd' else if c = 'µ' then 'u' else if c = 'μ' then 'u'
  else if c = '–' then '-' else if c = '—' then '-' else c

/-- Replace every maximal whitespace run by a single space
(`re.sub(r"\s+", " ", s)`); the Boolean flag records whether the previous
character belonged to a whitespace run already emitted as one space. -/
def collapseWsAux : Bool → Str → Str
  | _, [] => []
  | inRun, c :: t =>
    if isPySpace c then
      if inRun then collapseWsAux true t else ' ' :: collapseWsAux true t
    else c :: collapseWsAux false t

/-- `re.sub(r"\s+", " ", s)`. -/
def collapseWs (s : Str) : Str := collapseWsAux false s

/-- `normalize_base_name` from `build_analysis_dataset.py`: lowercase,
apply the Greek/dash replacements, collapse whitespace, replace any
character outside `[a-z0-9 %/+-]` by a space, collapse again, strip. -/
def normalize_base_name (name : Str) : Str :=
  pyStrip (collapseWs ((collapseWs ((name.map pyLower).map greekDashRepl)).map
    (fun c => if isAllowedBase c then c else ' ')))

/-- One row of the lab-variable manifest, restricted to the fields
`build_pooling_map` reads. -/
structure ManifestRow where
  variable_name : Str
  variable_desc : Str
  is_blood_candidate : Bool
deriving DecidableEq

/-- One row of the intermediate `var_counts` frame of `build_pooling_map`:
a variable with its representative description, its support count, and the
derived name/unit keys. -/
structure VarCount where
  variable_name : Str
  variable_desc : Str
  size : ℕ
  base_name : Str
  unit_raw : Str
  base_key : Str
  unit_norm : Str
  compat_key : Str
deriving DecidableEq

/-- The `compat_key` assignment: `"{num_base}/vol"` when the unit parses,
else the `"raw:" + unit_norm` fallback. -/
def compatOf (unitNorm : Str) : Str :=
  match (if unitNorm = [] then none else parseCore unitNorm) with
  | some s => s.num_base ++ strL "/vol"
  | none => strL "raw:" ++ unitNorm

/-- Build one `var_counts` row from a variable name, its representative
description and its support count. -/
def mkVarCount (nm desc : Str) (sz : ℕ) : VarCount :=
  let bu := parse_terminal_unit desc
  let un := normalize_unit bu.2
  { variable_name := nm, variable_desc := desc, size := sz,
    base_name := bu.1, unit_raw := bu.2,
    base_key := normalize_base_name bu.1, unit_norm := un,
    compat_key := compatOf un }

/-- The `is_blood_candidate` pre-filter of `build_pooling_map`. -/
def bloodRows (M : List ManifestRow) : List ManifestRow :=
  M.filter (fun r => r.is_blood_candidate)

/-- Support count of a `(variable_name, variable_desc)` pair, the `size`
column of the grouped manifest. -/
def pairSize (blood : List ManifestRow) (nm d : Str) : ℕ :=
  (blood.filter (fun r => decide (r.variable_name = nm ∧ r.variable_desc = d))).length

/-- The distinct descriptions seen for a variable. -/
def descsOf (blood : List ManifestRow) (nm : Str) : List Str :=
  (blood.filterMap (fun r =>
    if r.variable_name = nm then some r.variable_desc else none)).dedup

/-- The representative description of a variable: a description of maximal
support (the `sort_values(..., ascending=[True, False])` plus
`drop_duplicates(keep="first")` of the source; ties among maxima are
broken by first occurrence, one of the orders the unstable quicksort of
pandas may produce). -/
def bestDesc (blood : List ManifestRow) (nm : Str) : Option Str :=
  match descsOf blood nm with
  | [] => none
  | d :: ds => some (ds.foldl
      (fun best d' => if pairSize blood nm best < pairSize blood nm d' then d' else best) d)

/-- The `var_counts` frame: one enriched row per distinct blood-candidate
variable name. -/
def varCounts (M : List ManifestRow) : List VarCount :=
  let blood := bloodRows M
  ((blood.map (fun r => r.variable_name)).dedup).filterMap (fun nm =>
    (bestDesc blood nm).map (fun d => mkVarCount nm d (pairSize blood nm d)))

/-- One row of the pooling map emitted by `build_pooling_map`. -/
structure PoolEntry where
  variable_name : Str
  variable_desc : Str
  base_key : Str
  compat_key : Str
  pooled_id : Str
  pooled_name : Str
  pooled_unit : Str
  conversion_factor_to_pooled_unit : ℚ
deriving DecidableEq, Inhabited

/-- The reference row of a compatibility sub-group: a row of maximal
`size` (`sort_values("size", ascending=False).iloc[0]`; ties among maxima
by first occurrence, as for `bestDesc`). -/
def refRow : List VarCount → Option VarCount
  | [] => none
  | r :: rs => some (rs.foldl (fun best r' => if best.size < r'.size then r' else best) r)

/-- The disambiguation suffix of a pooled id: the normalized reference
unit, or the compat key with `:` replaced by `_` when that normalization
is empty. -/
def pidSuffix (refUnit compatKey : Str) : Str :=
  let s := normalize_unit refUnit
  if s = [] then compatKey.map (fun c => if c = ':' then '_' else c) else s

/-- Emit the pooling-map rows of one `(base_key, compat_key)` sub-group. -/
def poolEntriesFor (bk : Str) (multi : Bool) (ck : Str) (h : List VarCount) :
    List PoolEntry :=
  match refRow h with
  | none => []
  | some ref =>
    let refUnit := pyStrip ref.unit_raw
    let refBaseName := pyStrip ref.base_name
    let pid := if multi then bk ++ strL "__" ++ pidSuffix refUnit ck else bk
    let pooledName := if refUnit = [] then refBaseName
      else refBaseName ++ strL " (" ++ refUnit ++ strL ")"
    h.map (fun r =>
      let srcUnit := pyStrip r.unit_raw
      let factor : ℚ :=
        if refUnit ≠ [] ∧ srcUnit ≠ [] ∧
            normalize_unit srcUnit ≠ normalize_unit refUnit then
          match conversion_factor srcUnit refUnit with
          | some f => f
          | none => 1
        else 1
      { variable_name := r.variable_name, variable_desc := r.variable_desc,
        base_key := bk, compat_key := ck, pooled_id := pid,
        pooled_name := pooledName, pooled_unit := refUnit,
        conversion_factor_to_pooled_unit := factor })

/-- `build_pooling_map` from `build_analysis_dataset.py`: group the
`var_counts` rows by `base_key`, sub-group by `compat_key`, and emit a
pooling entry per member variable, with the pooled id disambiguated by
unit suffix when the base name spans several compatibility classes. -/
def build_pooling_map (M : List ManifestRow) : List PoolEntry :=
  let vc := varCounts M
  (groupByKey (fun r => r.base_key) vc).flatMap (fun bg =>
    let multi := decide (1 < ((bg.2.map (fun r => r.compat_key)).dedup).length)
    (groupByKey (fun r => r.compat_key) bg.2).flatMap (fun cg =>
      poolEntriesFor bg.1 multi cg.1 cg.2))

/-- A two-variable manifest whose pooled ids collide: an empty-unit
variable (sanitized suffix `raw_`) and a variable whose literal unit text
is `raw_`. -/
def cxManifest : List ManifestRow :=
  [⟨strL "V1", strL "Foo", true⟩, ⟨strL "V2", strL "Foo (raw_)", true⟩]

/-- A benign two-variable manifest: two albumin variables with
dimensionally compatible units, pooled under one id. -/
def wManifest : List ManifestRow :=
  [⟨strL "ALB", strL "Albumin (g/dL)", true⟩,
   ⟨strL "LBXSAL", strL "Albumin (g/L)", true⟩]

/-! ### Theorems -/

theorem lookupScale_mem {k : Str} {v : ℚ} :
    ∀ {T : List (Str × ℚ)}, lookupScale k T = some v → (k, v) ∈ T := by
  intro T
  induction T with
  | nil => intro h; cases h
  | cons hd tl ih =>
    obtain ⟨k', v'⟩ := hd
    intro h
    rw [lookupScale] at h
    by_cases hk : k = k'
    · rw [if_pos hk] at h
      obtain rfl := Option.some_injective _ h
      subst hk
      exact List.mem_cons_self _ _
    · rw [if_neg hk] at h
      exact List.mem_cons_of_mem _ (ih h)

theorem lookupScale_of_memKeys {k : Str} :
    ∀ {T : List (Str × ℚ)}, k ∈ T.map Prod.fst → ∃ v, lookupScale k T = some v := by
  intro T
  induction T with
  | nil => intro h; cases h
  | cons hd tl ih =>
    obtain ⟨k', v'⟩ := hd
    intro h
    rw [List.map_cons] at h
    rw [lookupScale]
    by_cases hk : k = k'
    · exact ⟨v', by rw [if_pos hk]⟩
    · rcases List.mem_cons.mp h with h1 | h2
      · exact absurd h1 hk
      · simpa [if_neg hk] using ih h2

theorem splitSlash_eq_some :
    ∀ {u a b : Str}, splitSlash u = some (a, b) → u = a ++ '/' :: b ∧ '/' ∉ a := by
  intro u
  induction u with
  | nil => intro a b h; cases h
  | cons c t ih =>
    intro a b h
    rw [splitSlash] at h
    by_cases hc : c = '/'
    · rw [if_pos hc] at h
      obtain ⟨rfl, rfl⟩ := Prod.mk.injEq .. ▸ Option.some_injective _ h
      subst hc; exact ⟨rfl, List.not_mem_nil _⟩
    · rw [if_neg hc] at h
      rcases Option.map_eq_some'.mp h with ⟨⟨a', b'⟩, hsp, hab⟩
      obtain ⟨rfl, rfl⟩ : c :: a' = a ∧ b' = b := by
        simpa using hab
      obtain ⟨rfl, hna⟩ := ih hsp
      refine ⟨rfl, ?_⟩
      intro hmem
      rcases List.mem_cons.mp hmem with h1 | h2
      · exact hc h1.symm
      · exact hna h2

theorem splitSlash_append {a : Str} (b : Str) (ha : '/' ∉ a) :
    splitSlash (a ++ '/' :: b) = some (a, b) := by
  induction a with
  | nil => simp [splitSlash]
  | cons c t ih =>
    have hc : c ≠ '/' := fun h => ha (h ▸ List.mem_cons_self _ _)
    have ht : '/' ∉ t := fun h => ha (List.mem_cons_of_mem _ h)
    simp [splitSlash, if_neg hc, ih ht]

theorem parseNum_eq_some {a b : Str} {sc : ℚ} (h : parseNum a = some (b, sc)) :
    b ∈ numBases ∧
      ((a = b ∧ sc = 1) ∨ ∃ c, a = c :: b ∧ lookupScale [c] PREFIX_SCALE = some sc) := by
  match a with
  | [] => cases h
  | c :: rest =>
    rw [parseNum] at h
    cases hl : lookupScale [c] PREFIX_SCALE with
    | some v =>
      rw [hl] at h
      dsimp only at h
      by_cases h1 : rest ∈ numBases
      · rw [if_pos h1] at h
        obtain ⟨rfl, rfl⟩ : rest = b ∧ v = sc := by simpa using h
        exact ⟨h1, Or.inr ⟨c, rfl, hl⟩⟩
      · rw [if_neg h1] at h
        by_cases h2 : (c :: rest) ∈ numBases
        · rw [if_pos h2] at h
          obtain ⟨rfl, rfl⟩ : c :: rest = b ∧ (1 : ℚ) = sc := by simpa using h
          exact ⟨h2, Or.inl ⟨rfl, rfl⟩⟩
        · rw [if_neg h2] at h; cases h
    | none =>
      rw [hl] at h
      dsimp only at h
      by_cases h2 : (c :: rest) ∈ numBases
      · rw [if_pos h2] at h
        obtain ⟨rfl, rfl⟩ : c :: rest = b ∧ (1 : ℚ) = sc := by simpa using h
        exact ⟨h2, Or.inl ⟨rfl, rfl⟩⟩
      · rw [if_neg h2] at h; cases h

theorem bases_noSlash : ∀ b ∈ numBases, '/' ∉ b := by decide

theorem prefixKeys_noSlash : ∀ p ∈ PREFIX_SCALE.map Prod.fst, '/' ∉ p := by decide

theorem PREFIX_SCALE_pos : ∀ q ∈ PREFIX_SCALE, 0 < q.2 := by decide

theorem DEN_SCALE_pos : ∀ q ∈ DEN_SCALE, 0 < q.2 := by decide

theorem parseNum_grammar {p b : Str} (hp : p ∈ PREFIX_SCALE.map Prod.fst)
    (hb : b ∈ numBases) : ∃ sc : ℚ, parseNum (p ++ b) = some (b, sc) := by
  have hp' : p = [] ∨ p = ['p'] ∨ p = ['n'] ∨ p = ['u'] ∨ p = ['m'] ∨ p = ['c'] ∨ p = ['d'] := by
    simpa [PREFIX_SCALE] using hp
  have hb' : b = strL "g" ∨ b = strL "mol" ∨ b = strL "iu" ∨ b = strL "u" ∨
      b = strL "eq" ∨ b = strL "kat" := by
    simpa [numBases] using hb
  rcases hp' with rfl | rfl | rfl | rfl | rfl | rfl | rfl
  · rcases hb' with rfl | rfl | rfl | rfl | rfl | rfl <;> exact ⟨1, by decide⟩
  · rcases hb' with rfl | rfl | rfl | rfl | rfl | rfl <;>
      exact ⟨mkRat 1 1000000000000, by decide⟩
  · rcases hb' with rfl | rfl | rfl | rfl | rfl | rfl <;>
      exact ⟨mkRat 1 1000000000, by decide⟩
  · rcases hb' with rfl | rfl | rfl | rfl | rfl | rfl <;>
      exact ⟨mkRat 1 1000000, by decide⟩
  · rcases hb' with rfl | rfl | rfl | rfl | rfl | rfl <;>
      exact ⟨mkRat 1 1000, by decide⟩
  · rcases hb' with rfl | rfl | rfl | rfl | rfl | rfl <;>
      exact ⟨mkRat 1 100, by decide⟩
  · rcases hb' with rfl | rfl | rfl | rfl | rfl | rfl <;>
      exact ⟨mkRat 1 10, by decide⟩

theorem parseCore_grammar {u : Str} (h : IsGrammar u) : ∃ s, parseCore u = some s := by
  rcases h with ⟨p, hp, b, hb, d, hd, rfl⟩
  have hnoSlash : '/' ∉ p ++ b := by
    intro hmem
    rcases List.mem_append.mp hmem with h1 | h2
    · exact prefixKeys_noSlash p hp h1
    · exact bases_noSlash b hb h2
  have hsplit : splitSlash (p ++ b ++ '/' :: d) = some (p ++ b, d) := by
    simpa using splitSlash_append (a := p ++ b) d hnoSlash
  rcases parseNum_grammar hp hb with ⟨sc, hpn⟩
  rcases lookupScale_of_memKeys hd with ⟨ds, hds⟩
  refine ⟨⟨b, sc, ds, p ++ b ++ '/' :: d⟩, ?_⟩
  rw [parseCore, hsplit]
  dsimp only
  rw [hpn, hds]

theorem grammar_of_parseCore {u : Str} {s : UnitSig} (h : parseCore u = some s) :
    IsGrammar u := by
  rw [parseCore] at h
  cases hsp : splitSlash u with
  | none => rw [hsp] at h; exact absurd h (by simp)
  | some pq =>
    obtain ⟨numPart, denPart⟩ := pq
    rw [hsp] at h
    dsimp only at h
    cases hpn : parseNum numPart with
    | none => rw [hpn] at h; exact absurd h (by simp)
    | some bs =>
      obtain ⟨b, ns⟩ := bs
      cases hds : lookupScale denPart DEN_SCALE with
      | none => rw [hpn, hds] at h; exact absurd h (by simp)
      | some ds =>
        obtain ⟨hu, -⟩ := splitSlash_eq_some hsp
        obtain ⟨hbmem, hcase⟩ := parseNum_eq_some hpn
        have hdmem : denPart ∈ DEN_SCALE.map Prod.fst :=
          List.mem_map.mpr ⟨(denPart, ds), lookupScale_mem hds, rfl⟩
        rcases hcase with ⟨heq, -⟩ | ⟨c, heq, hlp⟩
        · exact ⟨[], by simp [PREFIX_SCALE], b, hbmem, denPart, hdmem,
            by simpa [heq] using hu⟩
        · have hpmem : [c] ∈ PREFIX_SCALE.map Prod.fst :=
            List.mem_map.mpr ⟨([c], _), lookupScale_mem hlp, rfl⟩
          exact ⟨[c], hpmem, b, hbmem, denPart, hdmem, by simpa [heq] using hu⟩

theorem parseCore_scales {u : Str} {s : UnitSig} (h : parseCore u = some s) :
    0 < s.num_scale ∧ 0 < s.den_scale := by
  rw [parseCore] at h
  cases hsp : splitSlash u with
  | none => rw [hsp] at h; exact absurd h (by simp)
  | some pq =>
    obtain ⟨numPart, denPart⟩ := pq
    rw [hsp] at h
    dsimp only at h
    cases hpn : parseNum numPart with
    | none => rw [hpn] at h; exact absurd h (by simp)
    | some bs =>
      obtain ⟨b, ns⟩ := bs
      cases hds : lookupScale denPart DEN_SCALE with
      | none => rw [hpn, hds] at h; exact absurd h (by simp)
      | some ds =>
        rw [hpn, hds] at h
        dsimp only at h
        obtain rfl := Option.some_injective _ h
        refine ⟨?_, DEN_SCALE_pos _ (lookupScale_mem hds)⟩
        obtain ⟨-, hcase⟩ := parseNum_eq_some hpn
        rcases hcase with ⟨-, rfl⟩ | ⟨c, -, hlp⟩
        · norm_num
        · exact PREFIX_SCALE_pos _ (lookupScale_mem hlp)

theorem parse_unit_signature_scales {u : Str} {s : UnitSig}
    (h : parse_unit_signature u = some s) : 0 < s.num_scale ∧ 0 < s.den_scale := by
  rw [parse_unit_signature] at h
  by_cases hn : normalize_unit u = []
  · simp [hn] at h
  · rw [if_neg hn] at h
    exact parseCore_scales h

/-- C6.  `parse_unit_signature` returns `None` exactly when the normalized
input does not match the grammar `([pnumcd]?)(g|mol|iu|u|eq|kat)/(l|dl|ml|ul)`
(in particular on empty input); it succeeds on `"mg/dL"` and fails on
`"mg/m3"`. -/
theorem parse_unit_signature_grammar_characterization :
    (∀ u : Str, parse_unit_signature u = none ↔ ¬ IsGrammar (normalize_unit u)) ∧
    (parse_unit_signature (strL "mg/dL")).isSome = true ∧
    parse_unit_signature (strL "mg/m3") = none ∧
    parse_unit_signature ([] : Str) = none := by
  refine ⟨fun u => ?_, by decide, by decide, by decide⟩
  rw [parse_unit_signature]
  by_cases hn : normalize_unit u = []
  · rw [if_pos hn, hn]
    simp only [true_iff, eq_self_iff_true]
    rintro ⟨p, -, b, -, d, -, habs⟩
    have : p ++ b ++ '/' :: d ≠ [] := by simp
    exact this habs.symm
  · rw [if_neg hn]
    constructor
    · intro hnone hg
      rcases parseCore_grammar hg with ⟨s, hs⟩
      rw [hs] at hnone; cases hnone
    · intro hng
      cases hpc : parseCore (normalize_unit u) with
      | none => rfl
      | some s => exact absurd (grammar_of_parseCore hpc) hng

/-- C3.  For any two unit strings that parse to signatures with the same
base quantity, `conversion_factor` returns a strictly positive rational
(finite by construction in `ℚ`). -/
theorem conversion_factor_pos (a b : Str) (sa sb : UnitSig)
    (ha : parse_unit_signature a = some sa) (hb : parse_unit_signature b = some sb)
    (hbase : sa.num_base = sb.num_base) :
    ∃ q : ℚ, conversion_factor a b = some q ∧ 0 < q := by
  obtain ⟨hans, hads⟩ := parse_unit_signature_scales ha
  obtain ⟨hbns, hbds⟩ := parse_unit_signature_scales hb
  have hda : 0 < sa.num_scale / sa.den_scale := div_pos hans hads
  have hdb : 0 < sb.num_scale / sb.den_scale := div_pos hbns hbds
  refine ⟨(sa.num_scale / sa.den_scale) / (sb.num_scale / sb.den_scale), ?_, div_pos hda hdb⟩
  rw [conversion_factor, ha, hb]
  simp only [hbase, ne_eq, not_true_eq_false, if_false, ite_not]
  rw [if_neg (ne_of_gt hdb)]

/-- Witness for C3 at the concrete pair `("mg/dL", "g/L")`. -/
theorem conversion_factor_pos_witness :
    ∃ q : ℚ, conversion_factor (strL "mg/dL") (strL "g/L") = some q ∧ 0 < q :=
  conversion_factor_pos (strL "mg/dL") (strL "g/L")
    ⟨strL "g", mkRat 1 1000, mkRat 1 10, strL "mg/dl"⟩
    ⟨strL "g", 1, 1, strL "g/l"⟩ (by decide) (by decide) (by decide)

/-- C7.  For any two unit strings that parse to signatures with the same
base quantity, the conversion factors in the two directions are exact
multiplicative inverses. -/
theorem conversion_factor_inverse (a b : Str) (sa sb : UnitSig)
    (ha : parse_unit_signature a = some sa) (hb : parse_unit_signature b = some sb)
    (hbase : sa.num_base = sb.num_base) :
    ∃ q q' : ℚ, conversion_factor a b = some q ∧ conversion_factor b a = some q' ∧
      q * q' = 1 := by
  obtain ⟨q, hq, hqpos⟩ := conversion_factor_pos a b sa sb ha hb hbase
  obtain ⟨q', hq', hq'pos⟩ := conversion_factor_pos b a sb sa hb ha hbase.symm
  refine ⟨q, q', hq, hq', ?_⟩
  obtain ⟨hans, hads⟩ := parse_unit_signature_scales ha
  obtain ⟨hbns, hbds⟩ := parse_unit_signature_scales hb
  have hda : sa.num_scale / sa.den_scale ≠ 0 := ne_of_gt (div_pos hans hads)
  have hdb : sb.num_scale / sb.den_scale ≠ 0 := ne_of_gt (div_pos hbns hbds)
  have hq2 : q = (sa.num_scale / sa.den_scale) / (sb.num_scale / sb.den_scale) := by
    rw [conversion_factor, ha, hb] at hq
    simp only [hbase, ne_eq, not_true_eq_false, if_false, ite_not] at hq
    rw [if_neg (by exact hdb)] at hq
    exact (Option.some_injective _ hq).symm
  have hq'2 : q' = (sb.num_scale / sb.den_scale) / (sa.num_scale / sa.den_scale) := by
    rw [conversion_factor, hb, ha] at hq'
    simp only [hbase.symm, ne_eq, not_true_eq_false, if_false, ite_not] at hq'
    rw [if_neg (by exact hda)] at hq'
    exact (Option.some_injective _ hq').symm
  rw [hq2, hq'2]
  field_simp
  ring

/-- Witness for C7 at the concrete pair `("mg/dL", "g/L")`. -/
theorem conversion_factor_inverse_witness :
    ∃ q q' : ℚ, conversion_factor (strL "mg/dL") (strL "g/L") = some q ∧
      conversion_factor (strL "g/L") (strL "mg/dL") = some q' ∧ q * q' = 1 :=
  conversion_factor_inverse (strL "mg/dL") (strL "g/L")
    ⟨strL "g", mkRat 1 1000, mkRat 1 10, strL "mg/dl"⟩
    ⟨strL "g", 1, 1, strL "g/l"⟩ (by decide) (by decide) (by decide)

/-- C10.  The zero-destination-density guard of `conversion_factor` is
unreachable: every parsed signature has a strictly positive density, so
`conversion_factor` is `None` exactly when a side fails to parse or the
base quantities differ. -/
theorem conversion_factor_none_characterization :
    (∀ b : Str, ∀ s : UnitSig, parse_unit_signature b = some s →
        s.num_scale / s.den_scale ≠ 0) ∧
    (∀ a b : Str, conversion_factor a b = none ↔
        ¬ ∃ sa sb : UnitSig, parse_unit_signature a = some sa ∧
            parse_unit_signature b = some sb ∧ sa.num_base = sb.num_base) := by
  have hdens : ∀ b : Str, ∀ s : UnitSig, parse_unit_signature b = some s →
      s.num_scale / s.den_scale ≠ 0 := by
    intro b s h
    obtain ⟨h1, h2⟩ := parse_unit_signature_scales h
    exact ne_of_gt (div_pos h1 h2)
  refine ⟨hdens, fun a b => ?_⟩
  constructor
  · intro hnone
    rintro ⟨sa, sb, hsa, hsb, hbase⟩
    rcases conversion_factor_pos a b sa sb hsa hsb hbase with ⟨q, hq, -⟩
    rw [hq] at hnone; cases hnone
  · intro hne
    cases hpa : parse_unit_signature a with
    | none => rw [conversion_factor, hpa]
    | some sa =>
      cases hpb : parse_unit_signature b with
      | none => rw [conversion_factor, hpa, hpb]
      | some sb =>
        have hbase : sa.num_base ≠ sb.num_base := by
          intro heq
          exact hne ⟨sa, sb, hpa, hpb, heq⟩
        rw [conversion_factor, hpa, hpb]
        dsimp only
        rw [if_pos hbase]

/-- Witness for C10: a pair that fails to parse on the destination side. -/
theorem conversion_factor_none_characterization_witness :
    conversion_factor (strL "mg/dl") (strL "mg/m3") = none := by
  refine (conversion_factor_none_characterization.2 (strL "mg/dl") (strL "mg/m3")).mpr ?_
  rintro ⟨sa, sb, -, hsb, -⟩
  cases (show parse_unit_signature (strL "mg/m3") = none from by decide).symm.trans hsb

theorem cutIndex_isSome :
    ∀ (rest : List ℚ) (e1 a : ℚ), e1 ≤ a → a < (e1 :: rest).getLastD 0 →
      rest ≠ [] → (cutIndex a (e1 :: rest)).isSome = true := by
  intro rest
  induction rest with
  | nil => intro e1 a _ _ h3; exact absurd rfl h3
  | cons e2 rest' ih =>
    intro e1 a h1 h2 _
    rw [cutIndex]
    by_cases hlt : a < e2
    · rw [if_pos ⟨h1, hlt⟩]; rfl
    · rw [if_neg (by rintro ⟨-, h⟩; exact hlt h)]
      cases rest' with
      | nil =>
        exfalso
        have he : (e1 :: e2 :: ([] : List ℚ)).getLastD 0 = e2 := rfl
        rw [he] at h2
        exact hlt h2
      | cons e3 rest'' =>
        have h2' : a < (e2 :: e3 :: rest'').getLastD 0 := by
          simpa [List.getLastD_cons] using h2
        have hs := ih e2 a (le_of_not_lt hlt) h2' (by simp)
        obtain ⟨j, hj⟩ := Option.isSome_iff_exists.mp hs
        rw [hj]; rfl

theorem cutIndex_bound :
    ∀ (es : List ℚ) (a : ℚ) (j : ℕ), cutIndex a es = some j → j + 1 < es.length := by
  intro es
  induction es with
  | nil => intro a j h; cases h
  | cons e1 tl ih =>
    cases tl with
    | nil => intro a j h; cases h
    | cons e2 rest =>
      intro a j h
      rw [cutIndex] at h
      by_cases hc : e1 ≤ a ∧ a < e2
      · rw [if_pos hc] at h
        obtain rfl : (0 : ℕ) = j := Option.some_injective _ h
        simp
      · rw [if_neg hc] at h
        rcases Option.map_eq_some'.mp h with ⟨j', hj', rfl⟩
        have := ih a j' hj'
        simpa [Nat.succ_lt_succ_iff] using this

theorem cutIndex_sound :
    ∀ (es : List ℚ) (a : ℚ) (j : ℕ), cutIndex a es = some j →
      ∃ e1 e2, es.get? j = some e1 ∧ es.get? (j + 1) = some e2 ∧ e1 ≤ a ∧ a < e2 := by
  intro es
  induction es with
  | nil => intro a j h; cases h
  | cons e1 tl ih =>
    cases tl with
    | nil => intro a j h; cases h
    | cons e2 rest =>
      intro a j h
      rw [cutIndex] at h
      by_cases hc : e1 ≤ a ∧ a < e2
      · rw [if_pos hc] at h
        obtain rfl : (0 : ℕ) = j := Option.some_injective _ h
        exact ⟨e1, e2, rfl, rfl, hc.1, hc.2⟩
      · rw [if_neg hc] at h
        rcases Option.map_eq_some'.mp h with ⟨j', hj', rfl⟩
        rcases ih a j' hj' with ⟨f1, f2, hf1, hf2, hle, hlt⟩
        exact ⟨f1, f2, by simpa using hf1, by simpa using hf2, hle, hlt⟩

theorem ageBinEdges_sorted : ageBinEdges.Sorted (· < ·) := by decide

theorem ageBin_unique {a : ℚ} {j j' : ℕ} (h : InAgeBin a j) (h' : InAgeBin a j') :
    j = j' := by
  rcases h with ⟨e1, e2, h1, h2, hle, hlt⟩
  rcases h' with ⟨f1, f2, h1', h2', hle', hlt'⟩
  by_contra hne
  have key : ∀ {i k : ℕ} {x y z w : ℚ}, i < k →
      ageBinEdges.get? i = some x → ageBinEdges.get? (i + 1) = some y →
      ageBinEdges.get? k = some z → ageBinEdges.get? (k + 1) = some w →
      y ≤ z := by
    intro i k x y z w hik hx hy hz hw
    rcases List.get?_eq_some.mp hy with ⟨hyl, hyv⟩
    rcases List.get?_eq_some.mp hz with ⟨hzl, hzv⟩
    have hik' : i + 1 ≤ k := hik
    rcases lt_or_eq_of_le hik' with hlt2 | heq2
    · have := (List.pairwise_iff_get.mp ageBinEdges_sorted) ⟨i + 1, hyl⟩ ⟨k, hzl⟩
        (by exact hlt2)
      rw [hyv, hzv] at this
      exact le_of_lt this
    · subst heq2
      rw [hy] at hz
      obtain rfl := Option.some_injective _ hz
      exact le_refl _
  rcases Nat.lt_or_ge j j' with hjj | hjj
  · have hy : e2 ≤ f1 := key hjj h1 h2 h1' h2'
    exact absurd (lt_of_lt_of_le hlt (le_trans hy hle')) (lt_irrefl a)
  · rcases Nat.lt_or_ge j' j with hjj2 | hjj2
    · have hy : f2 ≤ e1 := key hjj2 h1' h2' h1 h2
      exact absurd (lt_of_lt_of_le hlt' (le_trans hy hle)) (lt_irrefl a)
    · exact hne (Nat.le_antisymm hjj2 hjj)

/-- C4 (amended).  Age-bin assignment is total and disjoint for
`20 ≤ age < 200` (not for every `age ≥ 20`: the top `pd.cut` edge is the
sentinel 200, so ages at or above 200 fall in no bin); the listed ages map
to the claimed bins and midpoints. -/
theorem assign_age_bin_total_unique :
    (∀ a : ℚ, 20 ≤ a → a < 200 →
      (∃! j : ℕ, InAgeBin a j) ∧ ∃ l m, assign_age_bin a = some (l, m)) ∧
    assign_age_bin 20 = some (strL "20-24", mkRat 45 2) ∧
    assign_age_bin 24 = some (strL "20-24", mkRat 45 2) ∧
    assign_age_bin 25 = some (strL "25-29", mkRat 55 2) ∧
    assign_age_bin 84 = some (strL "80-84", mkRat 165 2) ∧
    assign_age_bin 85 = some (strL "85+", mkRat 175 2) ∧
    assign_age_bin 99 = some (strL "85+", mkRat 175 2) := by
  refine ⟨fun a h20 h200 => ?_, by decide, by decide, by decide, by decide,
    by decide, by decide⟩
  have hshape : ageBinEdges = 20 :: ageBinEdges.tail := by decide
  have hlast : ageBinEdges.getLastD 0 = 200 := by decide
  have htail : ageBinEdges.tail ≠ [] := by decide
  have hsome : (cutIndex a ageBinEdges).isSome = true := by
    rw [hshape]
    exact cutIndex_isSome ageBinEdges.tail 20 a h20
      (by rw [← hshape, hlast]; exact h200) htail
  obtain ⟨j, hj⟩ := Option.isSome_iff_exists.mp hsome
  have hbound : j + 1 < ageBinEdges.length := cutIndex_bound _ _ _ hj
  have hlen : ageBinEdges.length = 15 := by decide
  have hjlt : j < 14 := by omega
  have hlab : ∃ l, ageBinLabels.get? j = some l := by
    cases hl : ageBinLabels.get? j with
    | none =>
      exfalso
      have : ageBinLabels.length ≤ j := List.get?_eq_none.mp hl
      have h14 : ageBinLabels.length = 14 := by decide
      omega
    | some l => exact ⟨l, rfl⟩
  have hmid : ∃ m, ageBinMids.get? j = some m := by
    cases hm : ageBinMids.get? j with
    | none =>
      exfalso
      have : ageBinMids.length ≤ j := List.get?_eq_none.mp hm
      have h14 : ageBinMids.length = 14 := by decide
      omega
    | some m => exact ⟨m, rfl⟩
  obtain ⟨l, hl⟩ := hlab
  obtain ⟨m, hm⟩ := hmid
  constructor
  · rcases cutIndex_sound _ _ _ hj with ⟨e1, e2, he1, he2, hle, hlt⟩
    exact ⟨j, ⟨e1, e2, he1, he2, hle, hlt⟩, fun k hk =>
      ageBin_unique hk ⟨e1, e2, he1, he2, hle, hlt⟩⟩
  · refine ⟨l, m, ?_⟩
    rw [assign_age_bin, hj]
    dsimp only
    rw [hl, hm]

/-- Witness for C4 at the concrete age 30. -/
theorem assign_age_bin_total_unique_witness :
    (∃! j : ℕ, InAgeBin 30 j) ∧ ∃ l m, assign_age_bin 30 = some (l, m) :=
  assign_age_bin_total_unique.1 30 (by norm_num) (by norm_num)

/-- Counterexample for C4 as stated: the claim asserts totality for every
`age_years ≥ 20`, but age 200 (which is `≥ 20`) receives no bin because the
top `pd.cut` edge is 200 and intervals are right-open. -/
theorem assign_age_bin_counterexample :
    (20 : ℚ) ≤ 200 ∧ assign_age_bin 200 = none := by
  constructor
  · norm_num
  · decide

/-- C5 (amended).  The per-bin record of `compute_binned` in
`compute_cv_metrics.py` carries `n`, `mean`, `std`, `cv` and
`passes_n_threshold` but no empirical-percentile fields; the 2.5th/97.5th
percentiles (`p025`/`p975`) are produced only by the dashboard aggregator
`compute_binned_long` in `build_dashboard.py`. -/
theorem compute_binned_columns_spec :
    (∀ hasUnit : Bool,
      strL "n" ∈ compute_binned_columns hasUnit ∧
      strL "mean" ∈ compute_binned_columns hasUnit ∧
      strL "std" ∈ compute_binned_columns hasUnit ∧
      strL "cv" ∈ compute_binned_columns hasUnit ∧
      strL "passes_n_threshold" ∈ compute_binned_columns hasUnit ∧
      strL "p2.5" ∉ compute_binned_columns hasUnit ∧
      strL "p97.5" ∉ compute_binned_columns hasUnit ∧
      strL "p025" ∉ compute_binned_columns hasUnit ∧
      strL "p975" ∉ compute_binned_columns hasUnit) ∧
    (∀ groupCols : List Str,
      strL "p025" ∈ compute_binned_long_columns groupCols ∧
      strL "p975" ∈ compute_binned_long_columns groupCols) := by
  constructor
  · intro hasUnit
    cases hasUnit <;> decide
  · intro groupCols
    constructor <;> · exact List.mem_append_right _ (by decide)

/-- Counterexample for C5 as stated: the output record of `compute_binned`
contains no 2.5th/97.5th percentile column under either naming. -/
theorem compute_binned_columns_counterexample :
    strL "p2.5" ∉ compute_binned_columns false ∧
    strL "p97.5" ∉ compute_binned_columns false ∧
    strL "p025" ∉ compute_binned_columns false ∧
    strL "p975" ∉ compute_binned_columns false := by decide

/-- C8 (amended).  `is_continuous_numeric` accepts exactly when none of the
four rejection rules fires, where the integer-likeness fraction uses the
tolerance `np.isclose` actually applies: `1e-12 + 1e-5 * |np.round(x)|`
(the relative term is NumPy's default `rtol`), not the bare `1e-12` of the
claim. -/
theorem is_continuous_numeric_iff (s : List (Option ℚ)) :
    is_continuous_numeric s = true ↔
      ¬((s.filterMap id).length < 30 ∨
        (s.filterMap id).dedup.length < 8 ∨
        (mkRat 995 1000 <
            (((s.filterMap id).filter integerLike).length : ℚ) /
              ((s.filterMap id).length : ℚ) ∧
          (s.filterMap id).dedup.length ≤ 12) ∨
        (((s.filterMap id).dedup.length : ℚ) /
              ((max (s.filterMap id).length 1 : ℕ) : ℚ) < mkRat 1 100 ∧
          (s.filterMap id).dedup.length < 20)) := by
  rw [is_continuous_numeric]
  dsimp only
  by_cases h1 : (s.filterMap id).length < 30
  · rw [if_pos h1]; simp [h1]
  · rw [if_neg h1]
    by_cases h2 : (s.filterMap id).dedup.length < 8
    · rw [if_pos h2]; simp [h1, h2]
    · rw [if_neg h2]
      have hn0 : ¬((s.filterMap id).length = 0) := by omega
      rw [if_neg hn0]
      by_cases h3 : mkRat 995 1000 <
          (((s.filterMap id).filter integerLike).length : ℚ) /
            ((s.filterMap id).length : ℚ) ∧ (s.filterMap id).dedup.length ≤ 12
      · rw [if_pos h3]; simp [h1, h2, h3]
      · rw [if_neg h3]
        simp only [Nat.cast_max, Nat.cast_one]
        by_cases h4 : ((s.filterMap id).dedup.length : ℚ) /
              max ((s.filterMap id).length : ℚ) 1 < mkRat 1 100 ∧
            (s.filterMap id).dedup.length < 20
        · rw [if_pos h4]; simp [h1, h2, h3, h4, Nat.cast_max]
        · rw [if_neg h4]; simp [h1, h2, h3, h4, Nat.cast_max]

/-- Counterexample for C8 as stated: a concrete series rejected by the code
(via the relative tolerance every entry counts as integer-like, the
integer-like fraction is 1 > 99.5%, and there are only 12 distinct values)
but accepted by the claim's reading of the rule (no entry within `1e-12`
of an integer). -/
theorem is_continuous_numeric_counterexample :
    is_continuous_numeric cxContinuityList = false ∧
    claim_is_continuous cxContinuityList = true := by decide

theorem grabUnit_eq_some :
    ∀ {t u r : Str}, grabUnit t = some (u, r) →
      t = u ++ ')' :: r ∧ ∀ c ∈ u, c ≠ '(' ∧ c ≠ ')' := by
  intro t
  induction t with
  | nil => intro u r h; cases h
  | cons c rest ih =>
    intro u r h
    rw [grabUnit] at h
    by_cases hc : c = ')'
    · rw [if_pos hc] at h
      obtain ⟨rfl, rfl⟩ : ([] : Str) = u ∧ rest = r := by simpa using h
      subst hc
      exact ⟨rfl, by simp⟩
    · rw [if_neg hc] at h
      by_cases ho : c = '('
      · rw [if_pos ho] at h; cases h
      · rw [if_neg ho] at h
        rcases Option.map_eq_some'.mp h with ⟨⟨u', r'⟩, hg, hur⟩
        obtain ⟨rfl, rfl⟩ : c :: u' = u ∧ r' = r := by simpa using hur
        obtain ⟨rfl, hu'⟩ := ih hg
        refine ⟨rfl, ?_⟩
        intro d hd
        rcases List.mem_cons.mp hd with rfl | hd2
        · exact ⟨ho, hc⟩
        · exact hu' d hd2

theorem grabUnit_append :
    ∀ {u : Str} (r : Str), (∀ c ∈ u, c ≠ '(' ∧ c ≠ ')') →
      grabUnit (u ++ ')' :: r) = some (u, r) := by
  intro u
  induction u with
  | nil => intro r _; simp [grabUnit]
  | cons c u' ih =>
    intro r hu
    have hc := hu c (List.mem_cons_self _ _)
    rw [List.cons_append, grabUnit, if_neg hc.2, if_neg hc.1,
      ih r (fun d hd => hu d (List.mem_cons_of_mem _ hd))]
    rfl

theorem matchHere_eq_some {t u : Str} (h : matchHere t = some u) :
    ∃ r, t = '(' :: (u ++ ')' :: r) ∧ (∀ c ∈ u, c ≠ '(' ∧ c ≠ ')') ∧
      ∀ c ∈ r, isPySpace c = true := by
  match t with
  | [] => cases h
  | c :: rest =>
    rw [matchHere] at h
    by_cases hc : c = '('
    · rw [if_pos hc] at h
      cases hg : grabUnit rest with
      | none => rw [hg] at h; cases h
      | some p =>
        obtain ⟨u', r⟩ := p
        rw [hg] at h
        dsimp only at h
        by_cases hall : rest.all isPySpace = true
        · by_cases hr : r.all isPySpace = true
          · rw [if_pos hr] at h
            obtain rfl := Option.some_injective _ h
            obtain ⟨hrest, hu⟩ := grabUnit_eq_some hg
            exact ⟨r, by rw [hc, hrest], hu, fun d hd => List.all_eq_true.mp hr d hd⟩
          · rw [if_neg hr] at h; cases h
        · by_cases hr : r.all isPySpace = true
          · rw [if_pos hr] at h
            obtain rfl := Option.some_injective _ h
            obtain ⟨hrest, hu⟩ := grabUnit_eq_some hg
            exact ⟨r, by rw [hc, hrest], hu, fun d hd => List.all_eq_true.mp hr d hd⟩
          · rw [if_neg hr] at h; cases h
    · rw [if_neg hc] at h; cases h

theorem matchHere_of {u w : Str} (hu : ∀ c ∈ u, c ≠ '(' ∧ c ≠ ')')
    (hw : ∀ c ∈ w, isPySpace c = true) :
    matchHere ('(' :: (u ++ ')' :: w)) = some u := by
  rw [matchHere, if_pos rfl, grabUnit_append w hu]
  dsimp only
  rw [if_pos (List.all_eq_true.mpr hw)]

theorem scanUnit_eq_some :
    ∀ {s : Str} {pre b u : Str}, scanUnit pre s = some (b, u) →
      ∃ b0 w, b = pre ++ b0 ∧ s = b0 ++ '(' :: (u ++ ')' :: w) ∧
        (∀ c ∈ u, c ≠ '(' ∧ c ≠ ')') ∧ ∀ c ∈ w, isPySpace c = true := by
  intro s
  induction s with
  | nil => intro pre b u h; cases h
  | cons c rest ih =>
    intro pre b u h
    rw [scanUnit] at h
    cases hm : matchHere (c :: rest) with
    | some u' =>
      rw [hm] at h
      dsimp only at h
      obtain ⟨rfl, rfl⟩ : pre = b ∧ u' = u := by simpa using h
      rcases matchHere_eq_some hm with ⟨r, hform, hu, hr⟩
      exact ⟨[], r, by simp, by simpa using hform, hu, hr⟩
    | none =>
      rw [hm] at h
      dsimp only at h
      rcases ih h with ⟨b0, w, hb, hs, hu, hw⟩
      exact ⟨c :: b0, w, by simpa using hb, by simp [hs], hu, hw⟩

theorem scanUnit_isSome :
    ∀ (b : Str) (u w pre : Str), (∀ c ∈ u, c ≠ '(' ∧ c ≠ ')') →
      (∀ c ∈ w, isPySpace c = true) →
      (scanUnit pre (b ++ '(' :: (u ++ ')' :: w))).isSome = true := by
  intro b
  induction b with
  | nil =>
    intro u w pre hu hw
    rw [List.nil_append, scanUnit, matchHere_of hu hw]
    rfl
  | cons c b' ih =>
    intro u w pre hu hw
    rw [List.cons_append, scanUnit]
    cases hm : matchHere (c :: (b' ++ '(' :: (u ++ ')' :: w))) with
    | some u' => rfl
    | none => exact ih u w (pre ++ [c]) hu hw

theorem takeWhile_append_of {p : Char → Bool} :
    ∀ (xs : Str) {y : Char} (ys : Str), (∀ c ∈ xs, p c = true) → p y = false →
      (xs ++ y :: ys).takeWhile p = xs ∧ (xs ++ y :: ys).dropWhile p = y :: ys := by
  intro xs
  induction xs with
  | nil =>
    intro y ys _ hy
    constructor
    · simp [List.takeWhile_cons, hy]
    · simp [List.dropWhile_cons, hy]
  | cons c xs' ih =>
    intro y ys hxs hy
    have hc : p c = true := hxs c (List.mem_cons_self _ _)
    have hxs' : ∀ d ∈ xs', p d = true := fun d hd => hxs d (List.mem_cons_of_mem _ hd)
    obtain ⟨ht, hd⟩ := ih ys hxs' hy
    constructor
    · rw [List.cons_append, List.takeWhile_cons, hc]
      simpa using ht
    · rw [List.cons_append, List.dropWhile_cons, hc]
      simpa using hd

theorem validSplit_unique {s b1 u1 w1 b2 u2 w2 : Str}
    (h1 : ValidSplit s b1 u1 w1) (h2 : ValidSplit s b2 u2 w2) :
    b1 = b2 ∧ u1 = u2 ∧ w1 = w2 := by
  obtain ⟨hs1, hu1, hw1⟩ := h1
  obtain ⟨hs2, hu2, hw2⟩ := h2
  have hrev : ∀ (b u w : Str), s = b ++ '(' :: (u ++ ')' :: w) →
      s.reverse = w.reverse ++ ')' :: (u.reverse ++ '(' :: b.reverse) := by
    intro b u w hs
    rw [hs]
    simp
  have hr1 := hrev _ _ _ hs1
  have hr2 := hrev _ _ _ hs2
  have hclose : isPySpace ')' = false := by decide
  have hsp1 : ∀ c ∈ w1.reverse, isPySpace c = true := fun c hc =>
    hw1 c (List.mem_reverse.mp hc)
  have hsp2 : ∀ c ∈ w2.reverse, isPySpace c = true := fun c hc =>
    hw2 c (List.mem_reverse.mp hc)
  obtain ⟨ht1, hd1⟩ := takeWhile_append_of w1.reverse (u1.reverse ++ '(' :: b1.reverse)
    hsp1 hclose
  obtain ⟨ht2, hd2⟩ := takeWhile_append_of w2.reverse (u2.reverse ++ '(' :: b2.reverse)
    hsp2 hclose
  rw [← hr1] at ht1 hd1
  rw [← hr2] at ht2 hd2
  have hwrev : w1.reverse = w2.reverse := by rw [← ht1, ← ht2]
  have hw : w1 = w2 := by
    have := congrArg List.reverse hwrev
    simpa using this
  have hd : u1.reverse ++ '(' :: b1.reverse = u2.reverse ++ '(' :: b2.reverse := by
    have h12 := hd1.symm.trans hd2
    exact List.cons_injective h12
  have hq : ∀ (u : Str), (∀ c ∈ u, c ≠ '(' ∧ c ≠ ')') →
      ∀ c ∈ u.reverse, (!(c = '(' || c = ')') : Bool) = true := by
    intro u hu c hc
    obtain ⟨hne1, hne2⟩ := hu c (List.mem_reverse.mp hc)
    simp [hne1, hne2]
  have hopen : (!((('(' : Char) = '(' || ('(' : Char) = ')') : Bool) : Bool) = false := by
    decide
  obtain ⟨ht1', hd1'⟩ := takeWhile_append_of u1.reverse b1.reverse (hq u1 hu1) hopen
  obtain ⟨ht2', hd2'⟩ := takeWhile_append_of u2.reverse b2.reverse (hq u2 hu2) hopen
  rw [← hd] at ht2' hd2'
  have hu12 : u1 = u2 := by
    have := ht1'.symm.trans ht2'
    have h2 := congrArg List.reverse this
    simpa using h2
  have hb12 : b1 = b2 := by
    have := hd1'.symm.trans hd2'
    have h2 := List.cons_injective this
    have h3 := congrArg List.reverse h2
    simpa using h3
  exact ⟨hb12, hu12, hw⟩

/-- C9 (amended).  `parse_terminal_unit` first strips the label; when the
stripped label ends in a non-nested parenthesized group (followed only by
whitespace), it returns the text before the group with trailing whitespace
and commas trimmed, paired with the stripped group content; otherwise it
returns the stripped label (not the raw input: surrounding whitespace is
removed) together with the empty unit. -/
theorem parse_terminal_unit_spec (label : Str) :
    (∀ b u w : Str, ValidSplit (pyStrip label) b u w →
      parse_terminal_unit label = (rstripComma (pyStrip b), pyStrip u)) ∧
    ((∀ b u w : Str, ¬ ValidSplit (pyStrip label) b u w) →
      parse_terminal_unit label = (pyStrip label, [])) := by
  constructor
  · intro b u w hv
    obtain ⟨hs, hu, hw⟩ := hv
    have hsome : (scanUnit [] (pyStrip label)).isSome = true := by
      rw [hs]
      exact scanUnit_isSome b u w [] hu hw
    obtain ⟨pu, hscan⟩ := Option.isSome_iff_exists.mp hsome
    obtain ⟨pre, u'⟩ := pu
    rcases scanUnit_eq_some hscan with ⟨b0, w', hpre, hs', hu', hw'⟩
    have huniq : b0 = b ∧ u' = u ∧ w' = w :=
      validSplit_unique ⟨hs', hu', hw'⟩ ⟨hs, hu, hw⟩
    rw [parse_terminal_unit, hscan]
    dsimp only
    rw [hpre, huniq.1, huniq.2.1]
    simp
  · intro hnone
    cases hscan : scanUnit [] (pyStrip label) with
    | none => rw [parse_terminal_unit, hscan]
    | some pu =>
      obtain ⟨pre, u⟩ := pu
      rcases scanUnit_eq_some hscan with ⟨b0, w, -, hs, hu, hw⟩
      exact absurd ⟨hs, hu, hw⟩ (hnone b0 u w)

/-- Witness for C9 at the label `"Albumin, (g/dL)"`. -/
theorem parse_terminal_unit_spec_witness :
    parse_terminal_unit (strL "Albumin, (g/dL)") =
      (rstripComma (pyStrip (strL "Albumin, ")), pyStrip (strL "g/dL")) :=
  (parse_terminal_unit_spec (strL "Albumin, (g/dL)")).1 (strL "Albumin, ") (strL "g/dL")
    [] ⟨by decide, by decide, by decide⟩

/-- Counterexample for C9 as stated: with no trailing parenthetical the
function does not return the full input unchanged, it returns the
whitespace-stripped input. -/
theorem parse_terminal_unit_counterexample :
    parse_terminal_unit (strL " Foo ") = (strL "Foo", ([] : Str)) ∧
    parse_terminal_unit (strL " Foo ") ≠ (strL " Foo ", ([] : Str)) := by decide

theorem groupByKey_mem {α κ : Type} [DecidableEq κ] {key : α → κ} {l : List α}
    {k : κ} {g : List α} (h : (k, g) ∈ groupByKey key l) :
    g = l.filter (fun x => decide (key x = k)) := by
  rcases List.mem_map.mp h with ⟨k', hk', heq⟩
  obtain ⟨rfl, rfl⟩ : k' = k ∧ l.filter (fun x => decide (key x = k')) = g := by
    simpa [Prod.ext_iff] using heq
  rfl

theorem length_insertByMid (r : CvRow) :
    ∀ l : List CvRow, (insertByMid r l).length = l.length + 1 := by
  intro l
  induction l with
  | nil => rfl
  | cons x t ih =>
    rw [insertByMid]
    by_cases hle : r.age_mid ≤ x.age_mid
    · rw [if_pos hle]; rfl
    · rw [if_neg hle]
      simp [ih]

theorem length_sortByAgeMid :
    ∀ l : List CvRow, (sortByAgeMid l).length = l.length := by
  intro l
  induction l with
  | nil => rfl
  | cons x t ih =>
    rw [sortByAgeMid, length_insertByMid, ih]
    rfl

theorem declineFlagOf_iff (nb : ℕ) (rho p sl : Option ℚ) :
    declineFlagOf nb rho p sl = true ↔
      (5 ≤ nb ∧ (∃ r, rho = some r ∧ r < 0) ∧
        (∃ pv, p = some pv ∧ pv < mkRat 1 20) ∧ (∃ s, sl = some s ∧ s < 0)) := by
  cases rho with
  | none => simp [declineFlagOf]
  | some r =>
    cases p with
    | none => simp [declineFlagOf]
    | some pv =>
      cases sl with
      | none => simp [declineFlagOf]
      | some s =>
        rw [declineFlagOf]
        simp only [Bool.and_eq_true, decide_eq_true_eq, Option.some_injective,
          Option.some.injEq]
        constructor
        · rintro ⟨⟨⟨h1, h2⟩, h3⟩, h4⟩
          exact ⟨h1, ⟨r, rfl, h2⟩, ⟨pv, rfl, h3⟩, ⟨s, rfl, h4⟩⟩
        · rintro ⟨h1, ⟨r', hr', h2⟩, ⟨pv', hp', h3⟩, ⟨s', hs', h4⟩⟩
          obtain rfl := hr'
          obtain rfl := hp'
          obtain rfl := hs'
          exact ⟨⟨⟨h1, h2⟩, h3⟩, h4⟩

/-- C2.  For every trend row produced by `compute_trends` (over any
Spearman/log oracle and any input table), the decline flag is set exactly
when there are at least five eligible bins, the Spearman rho is defined
and negative, the Spearman p-value is defined and below 0.05, and the
linear CV slope is defined and negative; and `n_bins` counts exactly the
eligible (`passes_n_threshold`) bins of that biomarker. -/
theorem compute_trends_decline_iff
    (sp : List ℚ → List ℚ → Option ℚ × Option ℚ) (logf : ℚ → ℚ)
    (cv_df : List CvRow) (t : TrendRow) (ht : t ∈ compute_trends sp logf cv_df) :
    (t.decline_flag = true ↔
      (5 ≤ t.n_bins ∧
        (∃ r, t.spearman_rho = some r ∧ r < 0) ∧
        (∃ pv, t.spearman_p = some pv ∧ pv < mkRat 1 20) ∧
        (∃ s, t.linear_slope_cv_per_year = some s ∧ s < 0))) ∧
    t.n_bins = ((cv_df.filter (fun r => r.passes_n_threshold)).filter
      (fun r => decide (r.biomarker_id = t.biomarker_id ∧
        r.biomarker_name = t.biomarker_name))).length := by
  rw [compute_trends] at ht
  rcases List.mem_map.mp ht with ⟨kg, hkg, rfl⟩
  obtain ⟨⟨bid, bname⟩, g0⟩ := kg
  have hg0 : g0 = (cv_df.filter (fun r => r.passes_n_threshold)).filter
      (fun r => decide ((r.biomarker_id, r.biomarker_name) = (bid, bname))) :=
    groupByKey_mem hkg
  constructor
  · exact declineFlagOf_iff _ _ _ _
  · show (sortByAgeMid g0).length = _
    rw [length_sortByAgeMid, hg0]
    congr 1
    apply List.filter_congr
    intro r _
    apply decide_eq_decide.mpr
    simp [Prod.ext_iff]

theorem mem_collapseWsAux :
    ∀ (s : Str) (b : Bool) (c : Char), c ∈ collapseWsAux b s → c = ' ' ∨ c ∈ s := by
  intro s
  induction s with
  | nil => intro b c h; cases h
  | cons d t ih =>
    intro b c h
    rw [collapseWsAux] at h
    by_cases hd : isPySpace d = true
    · rw [if_pos hd] at h
      by_cases hb : b = true
      · rw [if_pos hb] at h
        rcases ih true c h with h1 | h2
        · exact Or.inl h1
        · exact Or.inr (List.mem_cons_of_mem _ h2)
      · rw [if_neg hb] at h
        rcases List.mem_cons.mp h with rfl | h2
        · exact Or.inl rfl
        · rcases ih true c h2 with h1 | h3
          · exact Or.inl h1
          · exact Or.inr (List.mem_cons_of_mem _ h3)
    · rw [if_neg hd] at h
      rcases List.mem_cons.mp h with rfl | h2
      · exact Or.inr (List.mem_cons_self _ _)
      · rcases ih false c h2 with h1 | h3
        · exact Or.inl h1
        · exact Or.inr (List.mem_cons_of_mem _ h3)

theorem mem_collapseWs : ∀ (s : Str) (c : Char), c ∈ collapseWs s → c = ' ' ∨ c ∈ s :=
  fun s c h => mem_collapseWsAux s false c h

theorem mem_pyStrip {s : Str} {c : Char} (h : c ∈ pyStrip s) : c ∈ s := by
  rw [pyStrip] at h
  have h1 := List.mem_reverse.mp h
  have h2 := List.dropWhile_subset _ h1
  have h3 := List.mem_reverse.mp h2
  exact List.dropWhile_subset _ h3

theorem normalize_base_name_allowed (name : Str) :
    ∀ c ∈ normalize_base_name name, isAllowedBase c = true := by
  intro c hc
  rw [normalize_base_name] at hc
  have h1 := mem_pyStrip hc
  rcases mem_collapseWs _ _ h1 with rfl | h2
  · decide
  · rcases List.mem_map.mp h2 with ⟨d, -, rfl⟩
    by_cases hd : isAllowedBase d = true
    · rwa [if_pos hd]
    · rw [if_neg hd]; decide

theorem normalize_base_name_noUnderscore (name : Str) :
    '_' ∉ normalize_base_name name := by
  intro h
  exact absurd (normalize_base_name_allowed name '_' h) (by decide)

theorem doubleUnderscore_inj :
    ∀ (a : Str) {b s t : Str}, '_' ∉ a → '_' ∉ b →
      a ++ '_' :: '_' :: s = b ++ '_' :: '_' :: t → a = b ∧ s = t := by
  intro a
  induction a with
  | nil =>
    intro b s t _ hb heq
    cases b with
    | nil => simpa using heq
    | cons d b' =>
      exfalso
      have hd : d = '_' := by
        have := congrArg (fun l => l.head?) heq
        simpa using this.symm
      exact hb (hd ▸ List.mem_cons_self _ _)
  | cons c a' ih =>
    intro b s t ha hb heq
    cases b with
    | nil =>
      exfalso
      have hc : c = '_' := by
        have := congrArg (fun l => l.head?) heq
        simpa using this
      exact ha (hc ▸ List.mem_cons_self _ _)
    | cons d b' =>
      have hcd : c = d ∧ a' ++ '_' :: '_' :: s = b' ++ '_' :: '_' :: t := by
        simpa using heq
      obtain ⟨rfl, heq'⟩ := hcd
      have ha' : '_' ∉ a' := fun h => ha (List.mem_cons_of_mem _ h)
      have hb' : '_' ∉ b' := fun h => hb (List.mem_cons_of_mem _ h)
      obtain ⟨rfl, rfl⟩ := ih ha' hb' heq'
      exact ⟨rfl, rfl⟩

theorem head?_dropWhile_not {p : Char → Bool} :
    ∀ (l : Str) (c : Char), (l.dropWhile p).head? = some c → p c = false := by
  intro l
  induction l with
  | nil => intro c h; cases h
  | cons d t ih =>
    intro c h
    rw [List.dropWhile_cons] at h
    by_cases hd : p d = true
    · rw [if_pos hd] at h; exact ih c h
    · rw [if_neg hd] at h
      obtain rfl : d = c := by simpa using h
      simpa using hd

theorem dropWhile_rdrop_self (l : Str) :
    List.dropWhile isPySpace
        (List.rdropWhile isPySpace (List.dropWhile isPySpace l)) =
      List.rdropWhile isPySpace (List.dropWhile isPySpace l) := by
  have hdecomp : List.dropWhile isPySpace l =
      List.rdropWhile isPySpace (List.dropWhile isPySpace l) ++
        ((List.dropWhile isPySpace l).reverse.takeWhile isPySpace).reverse := by
    rw [List.rdropWhile]
    conv_lhs => rw [← List.reverse_reverse (List.dropWhile isPySpace l),
      ← List.takeWhile_append_dropWhile (p := isPySpace)
        (l := (List.dropWhile isPySpace l).reverse)]
    rw [List.reverse_append]
  cases hA : List.rdropWhile isPySpace (List.dropWhile isPySpace l) with
  | nil => rfl
  | cons a A' =>
    rw [List.dropWhile_cons]
    have hhead : (List.dropWhile isPySpace l).head? = some a := by
      rw [hdecomp, hA]
      rfl
    have ha := head?_dropWhile_not l a hhead
    rw [ha]
    simp

theorem pyStrip_idem (s : Str) : pyStrip (pyStrip s) = pyStrip s := by
  have h1 : ∀ t : Str, pyStrip t = List.rdropWhile isPySpace (List.dropWhile isPySpace t) :=
    fun t => rfl
  rw [h1 (pyStrip s), h1 s, dropWhile_rdrop_self, List.rdropWhile_idempotent]

theorem parse_terminal_unit_snd_stripped (label : Str) :
    pyStrip (parse_terminal_unit label).2 = (parse_terminal_unit label).2 := by
  rw [parse_terminal_unit]
  cases hscan : scanUnit [] (pyStrip label) with
  | none => rfl
  | some pu =>
    obtain ⟨pre, u⟩ := pu
    dsimp only
    exact pyStrip_idem u

theorem foldl_choice_mem {α : Type} {f : α → α → α}
    (hf : ∀ a b, f a b = a ∨ f a b = b) :
    ∀ (l : List α) (a : α), l.foldl f a ∈ a :: l := by
  intro l
  induction l with
  | nil => intro a; simp
  | cons x t ih =>
    intro a
    rw [List.foldl_cons]
    rcases hf a x with he | he <;> rw [he]
    · have h' := ih a
      rcases List.mem_cons.mp h' with h1 | h2
      · rw [h1]; exact List.mem_cons_self _ _
      · exact List.mem_cons_of_mem _ (List.mem_cons_of_mem _ h2)
    · have h' := ih x
      rcases List.mem_cons.mp h' with h1 | h2
      · rw [h1]
        exact List.mem_cons_of_mem _ (List.mem_cons_self _ _)
      · exact List.mem_cons_of_mem _ (List.mem_cons_of_mem _ h2)

theorem refRow_mem {h : List VarCount} {ref : VarCount} (hr : refRow h = some ref) :
    ref ∈ h := by
  cases h with
  | nil => cases hr
  | cons r rs =>
    rw [refRow] at hr
    obtain rfl := Option.some_injective _ hr
    exact foldl_choice_mem
      (fun a b => by by_cases hab : a.size < b.size <;> simp [hab]) rs r

theorem bestDesc_mem {blood : List ManifestRow} {nm d : Str}
    (h : bestDesc blood nm = some d) : d ∈ descsOf blood nm := by
  rw [bestDesc] at h
  cases hd : descsOf blood nm with
  | nil => rw [hd] at h; cases h
  | cons d0 ds =>
    rw [hd] at h
    dsimp only at h
    obtain rfl := Option.some_injective _ h
    exact foldl_choice_mem
      (fun a b => by
        by_cases hab : pairSize blood nm a < pairSize blood nm b <;> simp [hab]) ds d0

theorem descsOf_mem {blood : List ManifestRow} {nm d : Str} (h : d ∈ descsOf blood nm) :
    ∃ row ∈ blood, row.variable_desc = d := by
  rw [descsOf] at h
  have h2 := List.mem_dedup.mp h
  rcases List.mem_filterMap.mp h2 with ⟨row, hrow, hfm⟩
  by_cases hnm : row.variable_name = nm
  · rw [if_pos hnm] at hfm
    exact ⟨row, hrow, by simpa using hfm⟩
  · rw [if_neg hnm] at hfm; cases hfm

theorem varCounts_shape {M : List ManifestRow} {r : VarCount} (h : r ∈ varCounts M) :
    ∃ nm d sz, r = mkVarCount nm d sz ∧ ∃ row ∈ M, row.variable_desc = d := by
  simp only [varCounts] at h
  rcases List.mem_filterMap.mp h with ⟨nm, -, hfm⟩
  rcases Option.map_eq_some'.mp hfm with ⟨d, hbd, hmk⟩
  refine ⟨nm, d, pairSize (bloodRows M) nm d, hmk.symm, ?_⟩
  rcases descsOf_mem (bestDesc_mem hbd) with ⟨row, hrow, hdesc⟩
  exact ⟨row, (List.mem_filter.mp hrow).1, hdesc⟩

theorem varCount_fields {M : List ManifestRow} {r : VarCount} (h : r ∈ varCounts M) :
    r.compat_key = compatOf r.unit_norm ∧
    r.unit_norm = normalize_unit r.unit_raw ∧
    pyStrip r.unit_raw = r.unit_raw ∧
    '_' ∉ r.base_key ∧
    ∃ row ∈ M, r.unit_norm = normalize_unit (parse_terminal_unit row.variable_desc).2 := by
  rcases varCounts_shape h with ⟨nm, d, sz, rfl, row, hrow, hdesc⟩
  refine ⟨rfl, rfl, parse_terminal_unit_snd_stripped d,
    normalize_base_name_noUnderscore _, ⟨row, hrow, by rw [hdesc]; rfl⟩⟩

theorem eq_of_dedup_len_le_one {α : Type} [DecidableEq α] {l : List α}
    (h : l.dedup.length ≤ 1) {a b : α} (ha : a ∈ l) (hb : b ∈ l) : a = b := by
  have ha' := List.mem_dedup.mpr ha
  have hb' := List.mem_dedup.mpr hb
  cases hd : l.dedup with
  | nil => rw [hd] at ha'; cases ha'
  | cons c cs =>
    rw [hd] at ha' hb' h
    have hcs : cs = [] := by
      cases cs with
      | nil => rfl
      | cons x xs => exfalso; simp at h
    subst hcs
    have h1 : a = c := by simpa using ha'
    have h2 : b = c := by simpa using hb'
    rw [h1, h2]

theorem append_uu (x s : Str) : x ++ strL "__" ++ s = x ++ '_' :: '_' :: s := by
  rw [List.append_assoc]
  rfl

theorem build_pooling_map_shape {M : List ManifestRow} {e : PoolEntry}
    (he : e ∈ build_pooling_map M) :
    ∃ ref : VarCount,
      refRow (((varCounts M).filter (fun r => decide (r.base_key = e.base_key))).filter
          (fun r => decide (r.compat_key = e.compat_key))) = some ref ∧
      ref ∈ ((varCounts M).filter (fun r => decide (r.base_key = e.base_key))) ∧
      ref.compat_key = e.compat_key ∧ ref.base_key = e.base_key ∧
      ref ∈ varCounts M ∧
      e.pooled_id =
        (if 1 < ((((varCounts M).filter (fun r => decide (r.base_key = e.base_key))).map
              (fun r => r.compat_key)).dedup).length
          then e.base_key ++ strL "__" ++ pidSuffix (pyStrip ref.unit_raw) e.compat_key
          else e.base_key) := by
  simp only [build_pooling_map] at he
  rcases List.mem_flatMap.mp he with ⟨bg, hbg, he2⟩
  rcases List.mem_flatMap.mp he2 with ⟨cg, hcg, he3⟩
  obtain ⟨bk, gB⟩ := bg
  obtain ⟨ck, gC⟩ := cg
  have hgB : gB = (varCounts M).filter (fun r => decide (r.base_key = bk)) :=
    groupByKey_mem hbg
  have hgC : gC = gB.filter (fun r => decide (r.compat_key = ck)) :=
    groupByKey_mem hcg
  rw [poolEntriesFor] at he3
  cases hr : refRow gC with
  | none => rw [hr] at he3; cases he3
  | some ref =>
    rw [hr] at he3
    dsimp only at he3
    rcases List.mem_map.mp he3 with ⟨r0, hr0, hre⟩
    have hbk : e.base_key = bk := by rw [← hre]
    have hck : e.compat_key = ck := by rw [← hre]
    have hpid : e.pooled_id =
        (if decide (1 < ((gB.map (fun r => r.compat_key)).dedup).length) = true
          then bk ++ strL "__" ++ pidSuffix (pyStrip ref.unit_raw) ck
          else bk) := by rw [← hre]
    simp only [decide_eq_true_eq] at hpid
    have hrefmem : ref ∈ gC := refRow_mem hr
    rw [hgC] at hrefmem
    refine ⟨ref, ?_, ?_, ?_, ?_, ?_, ?_⟩
    · rw [hbk, hck, ← hgB, ← hgC]; exact hr
    · rw [hbk, ← hgB]; exact (List.mem_filter.mp hrefmem).1
    · rw [hck]
      exact of_decide_eq_true (List.mem_filter.mp hrefmem).2
    · rw [hbk]
      have := (List.mem_filter.mp hrefmem).1
      rw [hgB] at this
      exact of_decide_eq_true (List.mem_filter.mp this).2
    · have := (List.mem_filter.mp hrefmem).1
      rw [hgB] at this
      exact (List.mem_filter.mp this).1
    · rw [hbk, hck, ← hgB]; exact hpid

/-- C1 (amended).  Provided no variable's unit text normalizes to the
literal string `raw_` (which would collide with the sanitized suffix that
an empty-unit class receives), the pooled id determines and is determined
by the `(base_key, compat_key)` pair: all entries sharing a `pooled_id`
share base and compatibility class, and entries of the same pair share the
pooled id. -/
theorem build_pooling_map_pooled_id_iff (M : List ManifestRow)
    (H : ∀ row ∈ M,
      normalize_unit (parse_terminal_unit row.variable_desc).2 ≠ strL "raw_") :
    ∀ e1 ∈ build_pooling_map M, ∀ e2 ∈ build_pooling_map M,
      (e1.pooled_id = e2.pooled_id ↔
        (e1.base_key = e2.base_key ∧ e1.compat_key = e2.compat_key)) := by
  intro e1 he1 e2 he2
  rcases build_pooling_map_shape he1 with ⟨ref1, hr1, hm1, hck1, hbk1, hvc1, hpid1⟩
  rcases build_pooling_map_shape he2 with ⟨ref2, hr2, hm2, hck2, hbk2, hvc2, hpid2⟩
  obtain ⟨hcompat1, hnorm1, hstrip1, hnound1, hHrow1⟩ := varCount_fields hvc1
  obtain ⟨hcompat2, hnorm2, hstrip2, hnound2, hHrow2⟩ := varCount_fields hvc2
  have hnu1 : '_' ∉ e1.base_key := by rw [← hbk1]; exact hnound1
  have hnu2 : '_' ∉ e2.base_key := by rw [← hbk2]; exact hnound2
  have hsuf1 : pidSuffix (pyStrip ref1.unit_raw) e1.compat_key =
      (if ref1.unit_norm = []
        then e1.compat_key.map (fun c => if c = ':' then '_' else c)
        else ref1.unit_norm) := by
    rw [pidSuffix, hstrip1, ← hnorm1]
  have hsuf2 : pidSuffix (pyStrip ref2.unit_raw) e2.compat_key =
      (if ref2.unit_norm = []
        then e2.compat_key.map (fun c => if c = ':' then '_' else c)
        else ref2.unit_norm) := by
    rw [pidSuffix, hstrip2, ← hnorm2]
  have hckOf1 : e1.compat_key = compatOf ref1.unit_norm := by rw [← hck1]; exact hcompat1
  have hckOf2 : e2.compat_key = compatOf ref2.unit_norm := by rw [← hck2]; exact hcompat2
  constructor
  · intro hpe
    rw [hpid1, hpid2] at hpe
    by_cases hA : 1 < ((((varCounts M).filter
        (fun r => decide (r.base_key = e1.base_key))).map
          (fun r => r.compat_key)).dedup).length
    · rw [if_pos hA] at hpe
      by_cases hB : 1 < ((((varCounts M).filter
          (fun r => decide (r.base_key = e2.base_key))).map
            (fun r => r.compat_key)).dedup).length
      · rw [if_pos hB] at hpe
        rw [append_uu, append_uu] at hpe
        obtain ⟨hbase, hsufeq⟩ := doubleUnderscore_inj _ hnu1 hnu2 hpe
        refine ⟨hbase, ?_⟩
        rw [hsuf1, hsuf2] at hsufeq
        by_cases hn1 : ref1.unit_norm = []
        · by_cases hn2 : ref2.unit_norm = []
          · rw [hckOf1, hckOf2, hn1, hn2]
          · exfalso
            rw [if_pos hn1, if_neg hn2] at hsufeq
            have hck1' : e1.compat_key = strL "raw:" := by
              rw [hckOf1, hn1]
              simp [compatOf]
            have hsan : (strL "raw:").map (fun c => if c = ':' then '_' else c) =
                strL "raw_" := by decide
            rw [hck1', hsan] at hsufeq
            rcases hHrow2 with ⟨row, hrow, hnormrow⟩
            exact H row hrow (by rw [← hnormrow, ← hsufeq])
        · by_cases hn2 : ref2.unit_norm = []
          · exfalso
            rw [if_neg hn1, if_pos hn2] at hsufeq
            have hck2' : e2.compat_key = strL "raw:" := by
              rw [hckOf2, hn2]
              simp [compatOf]
            have hsan : (strL "raw:").map (fun c => if c = ':' then '_' else c) =
                strL "raw_" := by decide
            rw [hck2', hsan] at hsufeq
            rcases hHrow1 with ⟨row, hrow, hnormrow⟩
            exact H row hrow (by rw [← hnormrow, hsufeq])
          · rw [if_neg hn1, if_neg hn2] at hsufeq
            rw [hckOf1, hckOf2, hsufeq]
      · exfalso
        rw [if_neg hB] at hpe
        have hin : '_' ∈ e1.base_key ++ strL "__" ++
            pidSuffix (pyStrip ref1.unit_raw) e1.compat_key := by
          rw [append_uu]
          exact List.mem_append_right _ (List.mem_cons_self _ _)
        rw [hpe] at hin
        exact hnu2 hin
    · rw [if_neg hA] at hpe
      by_cases hB : 1 < ((((varCounts M).filter
          (fun r => decide (r.base_key = e2.base_key))).map
            (fun r => r.compat_key)).dedup).length
      · exfalso
        rw [if_pos hB] at hpe
        have hin : '_' ∈ e2.base_key ++ strL "__" ++
            pidSuffix (pyStrip ref2.unit_raw) e2.compat_key := by
          rw [append_uu]
          exact List.mem_append_right _ (List.mem_cons_self _ _)
        rw [← hpe] at hin
        exact hnu1 hin
      · rw [if_neg hB] at hpe
        refine ⟨hpe, ?_⟩
        rw [← hpe] at hm2
        have hmem1 : e1.compat_key ∈ (((varCounts M).filter
            (fun r => decide (r.base_key = e1.base_key))).map
              (fun r => r.compat_key)) := List.mem_map.mpr ⟨ref1, hm1, hck1⟩
        have hmem2 : e2.compat_key ∈ (((varCounts M).filter
            (fun r => decide (r.base_key = e1.base_key))).map
              (fun r => r.compat_key)) := List.mem_map.mpr ⟨ref2, hm2, hck2⟩
        exact eq_of_dedup_len_le_one (Nat.not_lt.mp hA) hmem1 hmem2
  · rintro ⟨hbase, hcompat⟩
    rw [hpid1, hpid2, hbase, hcompat]
    have hrr : ref1 = ref2 := by
      rw [hbase, hcompat] at hr1
      exact Option.some_injective _ (hr1.symm.trans hr2)
    rw [hrr]

/-- Witness for C1 on a benign manifest: two compatible albumin variables
receive the same pooled id, and the theorem forces their base and compat
keys to agree. -/
theorem build_pooling_map_pooled_id_iff_witness :
    ((build_pooling_map wManifest).headI.base_key =
        ((build_pooling_map wManifest).getLastD default).base_key ∧
      (build_pooling_map wManifest).headI.compat_key =
        ((build_pooling_map wManifest).getLastD default).compat_key) :=
  (build_pooling_map_pooled_id_iff wManifest (by decide)
    ((build_pooling_map wManifest).headI) (by decide)
    ((build_pooling_map wManifest).getLastD default) (by decide)).mp (by decide)

/-- Counterexample for C1 as stated: in the pooling map of `cxManifest`
two entries share the pooled id `foo__raw_` yet lie in different
compatibility classes (`raw:` and `raw:raw_`). -/
theorem build_pooling_map_counterexample :
    ¬ (∀ e1 ∈ build_pooling_map cxManifest, ∀ e2 ∈ build_pooling_map cxManifest,
        e1.pooled_id = e2.pooled_id → e1.compat_key = e2.compat_key) := by decide

/-- Witness for C2: on the six-bin strictly-decreasing test data with a
significant negative Spearman oracle, the decline flag is set. -/
theorem compute_trends_decline_iff_witness :
    (compute_trends spDecline (fun q => q) cvDfDecline).headI.decline_flag = true := by
  have h := (compute_trends_decline_iff spDecline (fun q => q) cvDfDecline
    ((compute_trends spDecline (fun q => q) cvDfDecline).headI) (by decide)).1
  refine h.mpr ⟨by decide, ⟨-1, by decide, by decide⟩,
    ⟨mkRat 1 100, by decide, by decide⟩,
    ⟨((compute_trends spDecline (fun q => q) cvDfDecline).headI.linear_slope_cv_per_year).getD 0,
      by decide, by decide⟩⟩

end NhanesVer
